import Mathlib

/-!
# Shallow embedding of the `openvsa` hypervector algebra

This file embeds the two algebra modules of the repository — the sparse binary
hypervector algebra (`src/ovsa/src/binary/mod.rs`) and the dense real
hypervector algebra (`src/ovsa/src/dense/mod.rs`) — together with the shared
error taxonomy (`src/ovsa/src/errors/mod.rs`), and proves or refutes the
frozen specification claims about them.

Modelling conventions:
* A Rust function that can abort (a failed `assert!`/`assert_eq!`, a `.unwrap()`
  on an `Err`, an out-of-bounds index, or a debug-mode integer overflow) is
  embedded with result type `Outcome α`; the uncategorized abort is the
  `Outcome.panic` constructor, kept distinct from `Outcome.err`, the closed
  `OVSAError` taxonomy returned through `Result` in the source.
* Machine integers: vote counters in `consensus_sum` are Rust `i16`; the
  embedding checks every `+= 1` / `-= 1` against the `i16` range and aborts on
  overflow, matching the debug-profile semantics under which the repository's
  own test suite runs (under the release profile the counter would wrap, making
  the same inputs produce a wrong vector instead of an abort).
  The `as usize` cast of a possibly negative `isize` in the binary
  `cyclic_shift` is embedded exactly as reduction modulo 2^64 (`usizeCast`).
* `f32`/`f64` arithmetic on dense vectors is embedded over `ℚ`; all concrete
  values exercised here are small integers, exactly representable, and no
  operation in scope depends on rounding.  The one place where a non-finite
  float can arise — the unguarded division in dense `similarity` — is embedded
  by the explicit IEEE-outcome type `FVal` (`0/0` is `nan`, `x/0` with `x ≠ 0`
  is an infinity, and a finite value `num / sqrt densq` is kept symbolically).
* Randomness is injected, as the specification requires: `sparse_random`
  receives the index list drawn by `rand::seq::index::sample` as an explicit
  argument (that sampler's documented postcondition is `SampleOk`, and it
  panics when `n_active > dimension`), and `consensus_sum` receives the
  tie-break draws as a boolean oracle indexed by the tied position.
* The `sprs` crate's vector constructors are embedded from their documented
  structure check: `CsVec::new` panics — and `CsVec::new_from_unsorted`
  (after sorting) returns `Err`, which `from_indices` unwraps into a panic —
  unless the index list is strictly increasing (duplicate-free) with every
  index below the dimension and matches the data length.
-/

/-- The closed error taxonomy of `src/ovsa/src/errors/mod.rs`. -/
inductive OVSAError where
  | VectorSizeMismatch
  | EmptyVectorList
  | EmptyIndices
  | ZeroActiveElements
  | ZeroDimension
  | TooManyActiveElements
deriving DecidableEq, Repr

/-- Result of running an embedded Rust function: a value, a closed taxonomy
error returned per call, or an uncategorized abort (failed assertion,
`.unwrap()` on `Err`, out-of-bounds index, debug-mode arithmetic overflow). -/
inductive Outcome (α : Type) where
  | ok (val : α)
  | err (e : OVSAError)
  | panic
deriving DecidableEq, Repr

/-- `sprs::CsVec<i8>`: explicit dimension, the indices of the explicitly
stored entries, and their values. -/
structure CsVec where
  dim : Nat
  indices : List Nat
  data : List Int
deriving DecidableEq, Repr

/-- Boolean form of the `sprs` structure check on indices: adjacent entries
strictly increase (sorted and duplicate-free). -/
def strictSorted : List Nat → Bool
  | [] => true
  | [_] => true
  | a :: b :: rest => decide (a < b) && strictSorted (b :: rest)

/-- `sprs::CsVec::new`: panics unless the data length matches, the indices are
strictly increasing, and every index is below the dimension. -/
def csvecNew (dim : Nat) (indices : List Nat) (data : List Int) : Outcome CsVec :=
  if (indices.length == data.length) && strictSorted indices
      && indices.all (fun i => decide (i < dim)) then
    .ok ⟨dim, indices, data⟩
  else
    .panic

namespace Binary

/-- Representation invariant of a sparse binary hypervector as produced by
this module: strictly increasing in-bounds indices and every stored value 1. -/
def WF (v : CsVec) : Prop :=
  v.indices.Chain' (· < ·) ∧ (∀ i ∈ v.indices, i < v.dim)
    ∧ v.data = List.replicate v.indices.length 1

/-- Documented postcondition of `rand::seq::index::sample(rng, dimension,
n_active)`: `n_active` distinct indices drawn from `[0, dimension)`. -/
def SampleOk (dimension n_active : Nat) (sampled : List Nat) : Prop :=
  sampled.length = n_active ∧ sampled.Nodup ∧ ∀ i ∈ sampled, i < dimension

/-- `binary::sparse_random`.  The randomness source is injected: `sampled` is
the list drawn by `rand::seq::index::sample`, which panics when
`n_active > dimension`.  The drawn indices are then sorted and handed to
`CsVec::new` together with an all-ones data vector. -/
def sparse_random (dimension n_active : Nat) (sampled : List Nat) :
    Outcome CsVec :=
  if n_active > dimension then
    .panic
  else
    csvecNew dimension (sampled.insertionSort (· ≤ ·))
      (List.replicate n_active 1)

/-- `binary::from_indices`: all-ones data, `CsVec::new_from_unsorted` (sorts
the indices, then runs the structure check) followed by `.unwrap()`, which
turns the `Err` cases into a panic. -/
def from_indices (dimension : Nat) (indices : List Nat) : Outcome CsVec :=
  let sorted := indices.insertionSort (· ≤ ·)
  if strictSorted sorted && sorted.all (fun i => decide (i < dimension)) then
    .ok ⟨dimension, sorted, List.replicate indices.length 1⟩
  else
    .panic

/-- Sparse vector addition of `sprs` (`vec1 + vec2`): merge of the two sorted
index/value sequences, summing values stored at a common index. -/
def addSparse : List (Nat × Int) → List (Nat × Int) → List (Nat × Int)
  | [], ys => ys
  | x :: xs, [] => x :: xs
  | (i, a) :: xs, (j, b) :: ys =>
    if i < j then (i, a) :: addSparse xs ((j, b) :: ys)
    else if j < i then (j, b) :: addSparse ((i, a) :: xs) ys
    else (i, a + b) :: addSparse xs ys
termination_by xs ys => xs.length + ys.length

/-- The stored (index, value) pairs of a vector, in storage order. -/
def pairsOf (v : CsVec) : List (Nat × Int) := v.indices.zip v.data

/-- Specification-side view of what `xor` computes on the index sets: the
merge-style symmetric difference of two sorted index lists.  Used only to
state and prove properties of `xor`; the executable path of `xor` itself goes
through `addSparse` exactly as the source does. -/
def symmXor : List Nat → List Nat → List Nat
  | [], B => B
  | a :: A, [] => a :: A
  | a :: A, b :: B =>
    if a < b then a :: symmXor A (b :: B)
    else if b < a then b :: symmXor (a :: A) B
    else symmXor A B
termination_by A B => A.length + B.length

/-- `binary::xor`: asserts equal dimensions (panic on mismatch), adds the two
vectors, keeps the indices whose summed value is 1, and rebuilds through
`from_indices`. -/
def xor (vec1 vec2 : CsVec) : Outcome CsVec :=
  if vec1.dim ≠ vec2.dim then
    .panic
  else
    let size := vec1.dim
    let result := addSparse (pairsOf vec1) (pairsOf vec2)
    let indices := (result.filter (fun p => p.2 == 1)).map Prod.fst
    from_indices size indices

/-- `binary::hamming_distance`: asserts equal dimensions (panic on mismatch),
then the number of stored entries of the xor. -/
def hamming_distance (vec1 vec2 : CsVec) : Outcome Nat :=
  if vec1.dim ≠ vec2.dim then
    .panic
  else
    match xor vec1 vec2 with
    | .ok c => .ok c.indices.length
    | .err e => .err e
    | .panic => .panic

/-- A binary-similarity value: `f64` outcome of `1 - distance/dimension`,
which is NaN exactly when the dimension is 0. -/
inductive SimVal where
  | nan
  | val (q : ℚ)
deriving DecidableEq, Repr

/-- `binary::similarity`: asserts equal dimensions (panic on mismatch), then
`1 - hamming_distance/dimension` in `f64` (NaN at dimension 0). -/
def similarity (vec1 vec2 : CsVec) : Outcome SimVal :=
  if vec1.dim ≠ vec2.dim then
    .panic
  else
    match hamming_distance vec1 vec2 with
    | .ok d =>
        .ok (if vec1.dim = 0 then .nan else .val (1 - (d : ℚ) / (vec1.dim : ℚ)))
    | .err e => .err e
    | .panic => .panic

/-- Rust `x as usize` on an `isize` value: reduction modulo `2 ^ 64`. -/
def usizeCast (x : Int) : Nat := (x % (2 ^ 64 : Int)).toNat

/-- `binary::cyclic_shift`: each stored index is shifted and then normalized
by at most one addition or subtraction of the dimension (the source checks
`< 0` and `>= size` once each, not in a loop), cast back to `usize`, and the
collected indices are rebuilt through `from_indices`. -/
def cyclic_shift (vec : CsVec) (shift_by : Int) : Outcome CsVec :=
  let size : Int := (vec.dim : Int)
  let new_indices := vec.indices.map (fun (index : Nat) =>
    let n0 : Int := (index : Int) + shift_by
    let n1 : Int := if n0 < 0 then n0 + size
      else if n0 ≥ size then n0 - size else n0
    usizeCast n1)
  from_indices vec.dim new_indices

/-- One `+= 1` / `-= 1` pass of `consensus_sum` over positions
`0..size` for a single input vector, with every update checked against the
`i16` range of `result_data` (debug-profile overflow is an abort). -/
def voteStep (size : Nat) (vec : CsVec) (votes : List Int) :
    Option (List Int) :=
  (List.range size).foldlM (fun vs index =>
    let value := vs.getD index 0 + (if vec.indices.contains index then 1 else -1)
    if -32768 ≤ value ∧ value ≤ 32767 then some (vs.set index value)
    else none) votes

/-- `binary::consensus_sum`.  `vectors[0]` on an empty slice is an
out-of-bounds panic.  Votes are tallied per position over `0..size` where
`size` is the FIRST vector's dimension (no dimension check); a position with a
positive net vote is active, a negative one inactive, and a tie is resolved by
the injected random draw `tie` for that position.  The surviving positions are
sorted and rebuilt through `from_indices`. -/
def consensus_sum (vectors : List CsVec) (tie : Nat → Bool) : Outcome CsVec :=
  match vectors with
  | [] => .panic
  | v0 :: _ =>
    let size := v0.dim
    match vectors.foldlM (fun votes v => voteStep size v votes)
        (List.replicate size 0) with
    | none => .panic
    | some votes =>
      let indices := (List.range size).filter (fun index =>
        let value := votes.getD index 0
        if value > 0 then true else if value < 0 then false else tie index)
      from_indices size (indices.insertionSort (· ≤ ·))

end Binary

namespace Dense

/-- The dot product `a.dot(b)` of `ndarray` over the common prefix (the
callers in scope assert equal lengths before reaching it). -/
def dot (a b : List ℚ) : ℚ := ((a.zip b).map (fun p => p.1 * p.2)).sum

/-- The squared L2 norm: `norm_l2` is its square root, and is zero exactly
when this sum of squares is zero. -/
def normSq (a : List ℚ) : ℚ := (a.map (fun x => x * x)).sum

/-- IEEE outcome of the one floating-point division in scope: `0/0` is NaN,
`x/0` with `x ≠ 0` is an infinity, and otherwise the finite value
`num / Real.sqrt densq` is kept symbolically as its numerator and the square
of its (nonzero) denominator. -/
inductive FVal where
  | nan
  | inf
  | finiteOver (num densq : ℚ)
deriving DecidableEq, Repr

/-- IEEE division `num / sqrt densq` with `densq ≥ 0`. -/
def divBySqrt (num densq : ℚ) : FVal :=
  if densq = 0 then (if num = 0 then .nan else .inf)
  else .finiteOver num densq

/-- `dense::similarity`: asserts equal lengths (panic on mismatch), then the
unguarded division `a.dot(b) / (a.norm_l2() * b.norm_l2())`; the product of
the norms is `sqrt (normSq a * normSq b)`. -/
def similarity (a b : List ℚ) : Outcome FVal :=
  if a.length ≠ b.length then
    .panic
  else
    .ok (divBySqrt (dot a b) (normSq a * normSq b))

/-- The index pairs `(i, j)` visited by the nested `for i in 0..n { for j in
0..n { ... } }` loops, in visit order. -/
def loopPairs (n : Nat) : List (Nat × Nat) :=
  (List.range n).flatMap (fun i => (List.range n).map (fun j => (i, j)))

/-- Loop body of `circular_convolution`: `result[k] += a[i] * b[j]` with
`k = (i + j) % n`. -/
def convStep (a b : List ℚ) (n : Nat) (res : List ℚ) (p : Nat × Nat) : List ℚ :=
  res.set ((p.1 + p.2) % n) (res.getD ((p.1 + p.2) % n) 0 + a.getD p.1 0 * b.getD p.2 0)

/-- `dense::circular_convolution`: `n` is the FIRST operand's length and no
dimension check is made; every iteration reads `b[j]` for `j < n`, which is an
out-of-bounds panic as soon as `b` is shorter than `a` (and silently ignores
the tail of `b` when `b` is longer).  Each visited pair adds
`a[i] * b[j]` into `result[(i + j) % n]`. -/
def circular_convolution (a b : List ℚ) : Outcome (List ℚ) :=
  let n := a.length
  if b.length < n then
    .panic
  else
    .ok ((loopPairs n).foldl (convStep a b n) (List.replicate n 0))

/-- Loop body of the dense `cyclic_shift`: write `array[old_index]` into
`result[(old_index + shift_by).rem_euclid(n)]`; `Int.emod` by a positive
modulus is exactly `rem_euclid`. -/
def shiftStep (array : List ℚ) (shift_by : Int) (n : Int) (res : List ℚ)
    (old : Nat) : List ℚ :=
  res.set ((((old : Int) + shift_by) % n).toNat) (array.getD old 0)

/-- `dense::cyclic_shift`: for every `old_index` in `0..n` the element moves
to position `(old_index + shift_by).rem_euclid(n)`. -/
def cyclic_shift (array : List ℚ) (shift_by : Int) : List ℚ :=
  (List.range array.length).foldl
    (shiftStep array shift_by (array.length : Int))
    (List.replicate array.length 0)

end Dense

/-! ## Helper lemmas about sorted index lists -/

lemma strictSorted_iff {l : List Nat} :
    strictSorted l = true ↔ l.Chain' (· < ·) := by
  induction l with
  | nil => simp [strictSorted]
  | cons a t ih =>
    cases t with
    | nil => simp [strictSorted]
    | cons b t' => simp [strictSorted, List.chain'_cons, ih, and_comm]

lemma chain_lt_pairwise {l : List Nat} :
    l.Chain' (· < ·) ↔ l.Pairwise (· < ·) :=
  List.chain'_iff_pairwise

lemma pairwise_lt_nodup {l : List Nat} (h : l.Pairwise (· < ·)) : l.Nodup :=
  h.imp Nat.ne_of_lt

lemma eq_of_chain_lt_ext {l1 l2 : List Nat} (h1 : l1.Chain' (· < ·))
    (h2 : l2.Chain' (· < ·)) (hm : ∀ a, a ∈ l1 ↔ a ∈ l2) : l1 = l2 := by
  have p1 := chain_lt_pairwise.mp h1
  have p2 := chain_lt_pairwise.mp h2
  have hperm := (List.perm_ext_iff_of_nodup (pairwise_lt_nodup p1)
    (pairwise_lt_nodup p2)).mpr hm
  exact List.eq_of_perm_of_sorted hperm (p1.imp le_of_lt) (p2.imp le_of_lt)

lemma insertionSort_sorted_le (l : List Nat) :
    (l.insertionSort (· ≤ ·)).Pairwise (· ≤ ·) :=
  List.sorted_insertionSort _ l

lemma insertionSort_of_sorted {l : List Nat} (h : l.Pairwise (· ≤ ·)) :
    l.insertionSort (· ≤ ·) = l :=
  List.eq_of_perm_of_sorted (List.perm_insertionSort _ l)
    (insertionSort_sorted_le l) h

lemma insertionSort_of_chain {l : List Nat} (h : l.Chain' (· < ·)) :
    l.insertionSort (· ≤ ·) = l :=
  insertionSort_of_sorted ((chain_lt_pairwise.mp h).imp le_of_lt)

lemma pairwise_lt_of_le_nodup :
    ∀ {l : List Nat}, l.Pairwise (· ≤ ·) → l.Nodup → l.Pairwise (· < ·)
  | [], _, _ => .nil
  | a :: t, hs, hn => by
    rw [List.pairwise_cons] at hs ⊢
    rw [List.nodup_cons] at hn
    exact ⟨fun b hb => lt_of_le_of_ne (hs.1 b hb)
      (fun hab => hn.1 (hab ▸ hb)), pairwise_lt_of_le_nodup hs.2 hn.2⟩

lemma insertionSort_chain_of_nodup {l : List Nat} (h : l.Nodup) :
    (l.insertionSort (· ≤ ·)).Chain' (· < ·) :=
  chain_lt_pairwise.mpr (pairwise_lt_of_le_nodup (insertionSort_sorted_le l)
    ((List.perm_insertionSort _ l).nodup_iff.mpr h))

/-! ## Inversion and success lemmas for the vector constructors -/

namespace Binary

lemma from_indices_ok {d : Nat} {idx : List Nat}
    (hs : (idx.insertionSort (· ≤ ·)).Chain' (· < ·))
    (hb : ∀ i ∈ idx, i < d) :
    from_indices d idx =
      .ok ⟨d, idx.insertionSort (· ≤ ·), List.replicate idx.length 1⟩ := by
  have h1 : strictSorted (idx.insertionSort (· ≤ ·)) = true := strictSorted_iff.mpr hs
  have h2 : (idx.insertionSort (· ≤ ·)).all (fun i => decide (i < d)) = true := by
    simp only [List.all_eq_true, decide_eq_true_eq]
    intro i hi
    exact hb i ((List.mem_insertionSort _).mp hi)
  simp [from_indices, h1, h2]

lemma from_indices_sorted_self {d : Nat} {idx : List Nat}
    (hs : idx.Chain' (· < ·)) (hb : ∀ i ∈ idx, i < d) :
    from_indices d idx = .ok ⟨d, idx, List.replicate idx.length 1⟩ := by
  have hs' : (idx.insertionSort (· ≤ ·)).Chain' (· < ·) := by
    rw [insertionSort_of_chain hs]; exact hs
  have h := from_indices_ok hs' hb
  rwa [insertionSort_of_chain hs] at h

lemma from_indices_WF {d : Nat} {idx : List Nat} {v : CsVec}
    (h : from_indices d idx = .ok v) : WF v := by
  simp only [from_indices] at h
  split at h
  case isTrue hc =>
    rw [Bool.and_eq_true] at hc
    injection h with h'
    subst h'
    refine ⟨strictSorted_iff.mp hc.1, ?_, ?_⟩
    · intro i hi
      have := List.all_eq_true.mp hc.2 i hi
      simpa using this
    · simp
  case isFalse => exact absurd h (by simp)

lemma csvecNew_ok_inv {d : Nat} {idx : List Nat} {data : List Int} {v : CsVec}
    (h : csvecNew d idx data = .ok v) :
    v = ⟨d, idx, data⟩ ∧ idx.Chain' (· < ·) ∧ (∀ i ∈ idx, i < d)
      ∧ idx.length = data.length := by
  unfold csvecNew at h
  split at h
  case isTrue hc =>
    rw [Bool.and_eq_true, Bool.and_eq_true] at hc
    injection h with h'
    refine ⟨h'.symm, strictSorted_iff.mp hc.1.2, ?_, by simpa using hc.1.1⟩
    intro i hi
    have := List.all_eq_true.mp hc.2 i hi
    simpa using this
  case isFalse => exact absurd h (by simp)

end Binary

/-! ## Claim C10: invariant preservation -/

/-- Claim C10: every sparse binary operation that returns a vector at all
(`from_indices`, `sparse_random`, `xor`, `cyclic_shift`, `consensus_sum`)
returns one satisfying the representation invariant: strictly increasing,
duplicate-free indices, all below the dimension, with every stored value 1. -/
theorem claim_C10 :
    (∀ d idx v, Binary.from_indices d idx = .ok v → Binary.WF v) ∧
    (∀ d n s v, Binary.sparse_random d n s = .ok v → Binary.WF v) ∧
    (∀ a b v, Binary.xor a b = .ok v → Binary.WF v) ∧
    (∀ a s v, Binary.cyclic_shift a s = .ok v → Binary.WF v) ∧
    (∀ vs t v, Binary.consensus_sum vs t = .ok v → Binary.WF v) := by
  refine ⟨fun d idx v h => Binary.from_indices_WF h, ?_, ?_, ?_, ?_⟩
  · intro d n s v h
    simp only [Binary.sparse_random] at h
    split at h
    · exact absurd h (by simp)
    · obtain ⟨hv, hchain, hb, hlen⟩ := Binary.csvecNew_ok_inv h
      subst hv
      exact ⟨hchain, hb, by
        simp only []
        rw [List.length_replicate] at hlen
        rw [← hlen]⟩
  · intro a b v h
    simp only [Binary.xor] at h
    split at h
    · exact absurd h (by simp)
    · exact Binary.from_indices_WF h
  · intro a s v h
    simp only [Binary.cyclic_shift] at h
    exact Binary.from_indices_WF h
  · intro vs t v h
    match vs with
    | [] => exact absurd h (by simp [Binary.consensus_sum])
    | v0 :: rest =>
      simp only [Binary.consensus_sum] at h
      split at h
      · exact absurd h (by simp)
      · exact Binary.from_indices_WF h

/-- Claim C10 witness: the invariant holds for a concrete output vector. -/
theorem claim_C10_witness : Binary.WF ⟨10, [1, 3], [1, 1]⟩ :=
  claim_C10.1 10 [3, 1] ⟨10, [1, 3], [1, 1]⟩ (by decide)

/-! ## Claims C3, C4, C5: error signalling of the sparse binary module -/

/-- Claim C3 (code evaluated at the failing inputs): on a dimension mismatch,
`xor`, `hamming_distance` and `similarity` all abort with an assertion panic —
an uncategorized abort, not the `VectorSizeMismatch` member of the closed
error variant, which none of them ever returns. -/
theorem claim_C3_divergence :
    Binary.xor ⟨1, [0], [1]⟩ ⟨2, [0], [1]⟩ = .panic ∧
    Binary.hamming_distance ⟨1, [0], [1]⟩ ⟨2, [0], [1]⟩ = .panic ∧
    Binary.similarity ⟨1, [0], [1]⟩ ⟨2, [0], [1]⟩ = .panic ∧
    (Outcome.panic : Outcome CsVec) ≠ .err OVSAError.VectorSizeMismatch := by
  exact ⟨by decide, by decide, by decide, fun h => nomatch h⟩

/-- Claim C4 (code evaluated at the failing inputs): `consensus_sum` of an
empty collection aborts with the out-of-bounds panic of `vectors[0]` instead
of returning `EmptyVectorList`, and on two inputs of different dimensions it
silently returns a result (over the first input's dimension) instead of
failing with `VectorSizeMismatch`. -/
theorem claim_C4_divergence :
    Binary.consensus_sum [] (fun _ => false) = .panic ∧
    (Outcome.panic : Outcome CsVec) ≠ .err OVSAError.EmptyVectorList ∧
    Binary.consensus_sum [⟨1, [0], [1]⟩, ⟨2, [0, 1], [1, 1]⟩] (fun _ => false)
      = .ok ⟨1, [0], [1]⟩ := by
  refine ⟨by decide, ?_, by decide⟩
  exact fun h => nomatch h

/-- Claim C5: `sparse_random` performs no validation of its own.  With
`n_active > dimension` the call aborts inside `rand`'s `sample` (a panic, not
`TooManyActiveElements`); with `dimension == 0` and `n_active == 0` it
returns the empty vector instead of failing with `ZeroDimension`.  For valid
inputs (`n_active ≤ dimension` and a sample satisfying the sampler's
postcondition) the result does have exactly `n_active` distinct active
positions, all below `dimension`. -/
theorem claim_C5_divergence :
    (Binary.sparse_random 1 2 [] = .panic ∧
      (Outcome.panic : Outcome CsVec) ≠ .err OVSAError.TooManyActiveElements) ∧
    (Binary.sparse_random 0 0 [] = .ok ⟨0, [], []⟩ ∧
      (Outcome.ok (⟨0, [], []⟩ : CsVec)) ≠ .err OVSAError.ZeroDimension) ∧
    (∀ dimension n_active sampled,
      Binary.SampleOk dimension n_active sampled → n_active ≤ dimension →
      ∃ v, Binary.sparse_random dimension n_active sampled = .ok v ∧
        v.dim = dimension ∧ v.indices.length = n_active ∧ v.indices.Nodup ∧
        ∀ i ∈ v.indices, i < dimension) := by
  refine ⟨⟨by decide, fun h => nomatch h⟩, ⟨by decide, fun h => nomatch h⟩, ?_⟩
  intro dimension n_active sampled hok hle
  obtain ⟨hlen, hnodup, hb⟩ := hok
  have hchain := insertionSort_chain_of_nodup hnodup
  have hlen' : (sampled.insertionSort (· ≤ ·)).length = n_active := by
    rw [(List.perm_insertionSort _ sampled).length_eq, hlen]
  refine ⟨⟨dimension, sampled.insertionSort (· ≤ ·), List.replicate n_active 1⟩,
    ?_, rfl, hlen', pairwise_lt_nodup (chain_lt_pairwise.mp hchain), ?_⟩
  · simp only [Binary.sparse_random, csvecNew]
    rw [if_neg (by omega)]
    rw [if_pos]
    rw [Bool.and_eq_true, Bool.and_eq_true]
    refine ⟨⟨?_, strictSorted_iff.mpr hchain⟩, ?_⟩
    · simp [hlen']
    · simp only [List.all_eq_true, decide_eq_true_eq]
      intro i hi
      exact hb i ((List.mem_insertionSort _).mp hi)
  · intro i hi
    exact hb i ((List.mem_insertionSort _).mp hi)

/-- Claim C5 witness: a concrete valid call returning one active position. -/
theorem claim_C5_witness :
    ∃ v, Binary.sparse_random 2 1 [1] = .ok v ∧
      v.dim = 2 ∧ v.indices.length = 1 ∧ v.indices.Nodup ∧
      ∀ i ∈ v.indices, i < 2 :=
  claim_C5_divergence.2.2 2 1 [1] (by constructor <;> simp) (by decide)

/-! ## Claim C2: counterexample for the sparse cyclic shift -/

/-- Claim C2 counterexample: for dimension 3, active set `{2}`, shift `4`, the
claim demands the active set `{(2+4) mod 3} = {0}`, but the single-pass
normalization of the source leaves the shifted index at `6 - 3 = 3`, out of
range, and the rebuild aborts. -/
theorem claim_C2_counterexample :
    Binary.cyclic_shift ⟨3, [2], [1]⟩ 4 = .panic ∧
    Binary.cyclic_shift ⟨3, [2], [1]⟩ 4 ≠ .ok ⟨3, [0], [1]⟩ := by
  exact ⟨by decide, by decide⟩

/-! ## Claim C6: duplicate indices are rejected, not deduplicated -/

/-- Claim C6 counterexample: a duplicated in-bounds index makes
`from_indices` abort (the sorted list fails the strictly-increasing structure
check and the `.unwrap()` panics); the deduplicated vector the claim promises
is not returned. -/
theorem claim_C6_counterexample :
    Binary.from_indices 10 [3, 3] = .panic ∧
    Binary.from_indices 10 [3, 3] ≠ .ok ⟨10, [3], [1]⟩ := by
  exact ⟨by decide, by decide⟩

/-- Claim C6 amended: for a duplicate-free index list with all entries below
`D`, `from_indices` returns the vector whose active set is exactly the input
collection, and any permutation of the input gives the identical vector;
duplicate indices, however, are rejected with a panic, not deduplicated. -/
theorem claim_C6_amended :
    ∀ D idx, idx.Nodup → (∀ i ∈ idx, i < D) →
    ∃ v, Binary.from_indices D idx = .ok v ∧ v.dim = D ∧
      (∀ i, i ∈ v.indices ↔ i ∈ idx) ∧
      ∀ idx', idx'.Perm idx → Binary.from_indices D idx' = .ok v := by
  intro D idx hnodup hb
  have hchain := insertionSort_chain_of_nodup hnodup
  refine ⟨⟨D, idx.insertionSort (· ≤ ·), List.replicate idx.length 1⟩,
    Binary.from_indices_ok hchain hb, rfl, ?_, ?_⟩
  · intro i; exact List.mem_insertionSort _
  · intro idx' hperm
    have hb' : ∀ i ∈ idx', i < D := fun i hi => hb i (hperm.mem_iff.mp hi)
    have hnd' : idx'.Nodup := hperm.nodup_iff.mpr hnodup
    have h := Binary.from_indices_ok (insertionSort_chain_of_nodup hnd') hb'
    have hsorteq : idx'.insertionSort (· ≤ ·) = idx.insertionSort (· ≤ ·) :=
      List.eq_of_perm_of_sorted
        ((List.perm_insertionSort _ idx').trans
          (hperm.trans (List.perm_insertionSort _ idx).symm))
        (insertionSort_sorted_le idx') (insertionSort_sorted_le idx)
    rw [h, hsorteq, hperm.length_eq]

/-- Claim C6 witness: a concrete duplicate-free call, checked together with a
permutation of the same input. -/
theorem claim_C6_witness :
    ∃ v, Binary.from_indices 10 [3, 1] = .ok v ∧ v.dim = 10 ∧
      (∀ i, i ∈ v.indices ↔ i ∈ [3, 1]) ∧
      ∀ idx', idx'.Perm [3, 1] → Binary.from_indices 10 idx' = .ok v :=
  claim_C6_amended 10 [3, 1] (by decide) (by decide)

/-! ## Claim C7: counterexample for the dense circular convolution -/

/-- Claim C7 counterexample: `circular_convolution` never checks dimensions;
with a second operand longer than the first it silently returns a result
computed over the first operand's length instead of failing with
`VectorSizeMismatch`. -/
theorem claim_C7_counterexample :
    Dense.circular_convolution [1] [1, 0] = .ok [1] ∧
    Dense.circular_convolution [1] [1, 0] ≠ .err OVSAError.VectorSizeMismatch := by
  constructor
  · norm_num [Dense.circular_convolution, Dense.convStep, Dense.loopPairs, List.range_succ]
  · intro h
    rw [show Dense.circular_convolution [1] [1, 0] = .ok [1] by
      norm_num [Dense.circular_convolution, Dense.convStep, Dense.loopPairs, List.range_succ]] at h
    exact nomatch h

/-! ## Claim C9: unguarded zero-norm division in dense similarity -/

lemma normSq_nonneg (a : List ℚ) : 0 ≤ Dense.normSq a := by
  unfold Dense.normSq
  induction a with
  | nil => simp
  | cons x t ih =>
    rw [List.map_cons, List.sum_cons]
    exact add_nonneg (mul_self_nonneg x) ih

lemma eq_zero_of_normSq_eq_zero :
    ∀ {a : List ℚ}, Dense.normSq a = 0 → ∀ x ∈ a, x = 0
  | [], _, x, hx => absurd hx (List.not_mem_nil x)
  | y :: t, h, x, hx => by
    rw [Dense.normSq, List.map_cons, List.sum_cons] at h
    have h2 : 0 ≤ Dense.normSq t := normSq_nonneg t
    rw [Dense.normSq] at h2
    have hy : y * y = 0 := le_antisymm (by linarith [mul_self_nonneg y]) (mul_self_nonneg y)
    have ht : Dense.normSq t = 0 := by rw [Dense.normSq]; linarith [mul_self_nonneg y]
    rcases List.mem_cons.mp hx with rfl | hx'
    · exact mul_self_eq_zero.mp hy
    · exact eq_zero_of_normSq_eq_zero ht x hx'

lemma dot_eq_zero_left {a b : List ℚ} (h : ∀ x ∈ a, x = 0) : Dense.dot a b = 0 := by
  unfold Dense.dot
  apply List.sum_eq_zero
  intro q hq
  obtain ⟨p, hp, rfl⟩ := List.mem_map.mp hq
  rw [h p.1 (List.of_mem_zip hp).1, zero_mul]

lemma dot_eq_zero_right {a b : List ℚ} (h : ∀ x ∈ b, x = 0) : Dense.dot a b = 0 := by
  unfold Dense.dot
  apply List.sum_eq_zero
  intro q hq
  obtain ⟨p, hp, rfl⟩ := List.mem_map.mp hq
  rw [h p.2 (List.of_mem_zip hp).2, mul_zero]

/-- Claim C9: when the operands have equal lengths and either has zero L2 norm
(zero sum of squares), dense `similarity` performs the unguarded division
`0/0` and the result is the non-finite value NaN, returned as an ordinary
value — no error of the taxonomy is signalled and no zero-norm policy exists. -/
theorem claim_C9_nan :
    ∀ a b : List ℚ, a.length = b.length →
    (Dense.normSq a = 0 ∨ Dense.normSq b = 0) →
    Dense.similarity a b = .ok .nan := by
  intro a b hlen hz
  have hdot : Dense.dot a b = 0 := by
    rcases hz with hz | hz
    · exact dot_eq_zero_left (eq_zero_of_normSq_eq_zero hz)
    · exact dot_eq_zero_right (eq_zero_of_normSq_eq_zero hz)
  have hprod : Dense.normSq a * Dense.normSq b = 0 := by
    rcases hz with hz | hz <;> simp [hz]
  simp [Dense.similarity, hlen, Dense.divBySqrt, hprod, hdot]

/-- Claim C9 witness: the zero vector against a unit vector of dimension 1. -/
theorem claim_C9_witness : Dense.similarity [0] [1] = .ok .nan :=
  claim_C9_nan [0] [1] rfl (Or.inl (by norm_num [Dense.normSq]))

/-! ## Claim C7: the convolution formula -/

lemma getD_set_self {l : List ℚ} {i : Nat} (h : i < l.length) (a : ℚ) :
    (l.set i a).getD i 0 = a := by
  simp [List.getD_eq_getElem?_getD, List.getElem?_set_self, h]

lemma getD_set_ne {l : List ℚ} {i j : Nat} (h : i ≠ j) (a : ℚ) :
    (l.set i a).getD j 0 = l.getD j 0 := by
  simp [List.getD_eq_getElem?_getD, List.getElem?_set_ne h]

lemma getD_replicate_zero (n k : Nat) : (List.replicate n (0 : ℚ)).getD k 0 = 0 := by
  rw [List.getD_eq_getElem?_getD, List.getElem?_replicate]
  split <;> rfl

lemma conv_foldl_length (a b : List ℚ) (n : Nat) :
    ∀ (ps : List (Nat × Nat)) (init : List ℚ),
      (ps.foldl (Dense.convStep a b n) init).length = init.length
  | [], _ => rfl
  | p :: ps, init => by
    rw [List.foldl_cons, conv_foldl_length a b n ps _, Dense.convStep,
      List.length_set]

lemma conv_foldl_getD (a b : List ℚ) (n : Nat) :
    ∀ (ps : List (Nat × Nat)) (init : List ℚ), init.length = n →
      ∀ k, k < n →
      (ps.foldl (Dense.convStep a b n) init).getD k 0 =
        init.getD k 0 +
          ((ps.filter (fun p => (p.1 + p.2) % n == k)).map
            (fun p => a.getD p.1 0 * b.getD p.2 0)).sum
  | [], init, _, k, _ => by simp
  | p :: ps, init, hlen, k, hk => by
    rw [List.foldl_cons,
      conv_foldl_getD a b n ps (Dense.convStep a b n init p)
        (by rw [Dense.convStep, List.length_set, hlen]) k hk]
    by_cases hp : (p.1 + p.2) % n = k
    · rw [List.filter_cons_of_pos (by simpa using hp), List.map_cons,
        List.sum_cons]
      rw [Dense.convStep, hp, getD_set_self (by rw [hlen]; exact hk)]
      ring
    · rw [List.filter_cons_of_neg (by simpa using hp)]
      rw [Dense.convStep, getD_set_ne hp]

/-- Claim C7 amended: `circular_convolution` performs no dimension validation
(and never returns `VectorSizeMismatch`): a second operand shorter than the
first aborts with an index panic, while any second operand at least as long —
the equal-dimension case included — yields the vector with
`result[k] = Σ over (i,j) in [0,n)² with (i+j) mod n = k of a[i]·b[j]`, with
`n` the first operand's length; in particular
`circular_convolution([1,0,0], [0,1,0]) = [0,1,0]`. -/
theorem claim_C7_amended :
    (∀ a b : List ℚ, b.length < a.length →
      Dense.circular_convolution a b = .panic) ∧
    (∀ a b : List ℚ, a.length ≤ b.length →
      ∃ r, Dense.circular_convolution a b = .ok r ∧ r.length = a.length ∧
        ∀ k, k < a.length →
          r.getD k 0 = (((Dense.loopPairs a.length).filter
              (fun p => (p.1 + p.2) % a.length == k)).map
            (fun p => a.getD p.1 0 * b.getD p.2 0)).sum) ∧
    Dense.circular_convolution [1, 0, 0] [0, 1, 0] = .ok [0, 1, 0] := by
  refine ⟨?_, ?_, ?_⟩
  · intro a b hlt
    simp [Dense.circular_convolution, hlt]
  · intro a b hle
    refine ⟨(Dense.loopPairs a.length).foldl
      (Dense.convStep a b a.length) (List.replicate a.length 0), ?_, ?_, ?_⟩
    · simp [Dense.circular_convolution, Nat.not_lt.mpr hle]
    · rw [conv_foldl_length, List.length_replicate]
    · intro k hk
      rw [conv_foldl_getD a b a.length (Dense.loopPairs a.length)
        (List.replicate a.length 0) (List.length_replicate ..) k hk]
      rw [getD_replicate_zero, zero_add]
  · norm_num [Dense.circular_convolution, Dense.convStep, Dense.loopPairs,
      List.range_succ, List.getElem_cons_succ, List.getElem_cons_zero,
      List.replicate, List.set]
    exact Or.inl rfl

/-- Claim C7 witness: the formula instantiated at a concrete pair of
equal-length vectors. -/
theorem claim_C7_witness :
    ∃ r, Dense.circular_convolution [1, 2] [3, 4] = .ok r ∧ r.length = 2 ∧
      ∀ k, k < 2 →
        r.getD k 0 = (((Dense.loopPairs 2).filter
            (fun p => (p.1 + p.2) % 2 == k)).map
          (fun p => ([(1 : ℚ), 2]).getD p.1 0 * ([(3 : ℚ), 4]).getD p.2 0)).sum :=
  claim_C7_amended.2.1 [1, 2] [3, 4] (by norm_num)

/-! ## Claim C1: xor is the exact symmetric difference and is self-inverse -/

lemma chain_lt_tail {a : Nat} {A : List Nat}
    (h : (a :: A).Chain' (· < ·)) : A.Chain' (· < ·) :=
  (List.chain'_cons'.mp h).2

lemma chain_lt_head {a : Nat} {A : List Nat}
    (h : (a :: A).Chain' (· < ·)) : ∀ x ∈ A, a < x :=
  (List.pairwise_cons.mp (chain_lt_pairwise.mp h)).1

lemma chain_lt_not_mem {a : Nat} {A : List Nat}
    (h : (a :: A).Chain' (· < ·)) : a ∉ A :=
  fun hm => lt_irrefl a (chain_lt_head h a hm)

lemma lt_head_not_mem {a b : Nat} {B : List Nat} (hab : a < b)
    (hB : (b :: B).Chain' (· < ·)) : a ∉ b :: B := by
  intro hm
  rcases List.mem_cons.mp hm with rfl | hm'
  · exact lt_irrefl a hab
  · exact lt_asymm hab (chain_lt_head hB a hm')

lemma one_filter_map (A : List Nat) :
    ((A.map fun i => (i, (1 : Int))).filter (fun p => p.2 == 1)).map Prod.fst
      = A := by
  induction A with
  | nil => rfl
  | cons a t ih => simp [ih]

lemma addSparse_filter_map : ∀ (A B : List Nat),
    ((Binary.addSparse (A.map fun i => (i, (1 : Int)))
        (B.map fun i => (i, 1))).filter (fun p => p.2 == 1)).map Prod.fst
      = Binary.symmXor A B
  | [], B => by
    rw [show Binary.addSparse ([].map fun i => (i, (1 : Int)))
        (B.map fun i => (i, 1)) = B.map fun i => (i, 1) from by
      simp [Binary.addSparse]]
    rw [one_filter_map]
    simp [Binary.symmXor]
  | a :: A, [] => by
    rw [show Binary.addSparse ((a :: A).map fun i => (i, (1 : Int)))
        (([] : List Nat).map fun i => (i, 1))
        = (a :: A).map fun i => (i, 1) from by simp [Binary.addSparse]]
    rw [one_filter_map]
    simp [Binary.symmXor]
  | a :: A, b :: B => by
    by_cases hab : a < b
    · rw [show Binary.addSparse ((a :: A).map fun i => (i, (1 : Int)))
          ((b :: B).map fun i => (i, 1))
          = (a, 1) :: Binary.addSparse (A.map fun i => (i, (1 : Int)))
            ((b :: B).map fun i => (i, 1)) from by
        simp [Binary.addSparse, hab]]
      rw [show ((a, (1 : Int)) :: Binary.addSparse (A.map fun i => (i, (1 : Int)))
          ((b :: B).map fun i => (i, 1))).filter (fun p => p.2 == 1)
          = (a, (1 : Int)) :: (Binary.addSparse (A.map fun i => (i, (1 : Int)))
            ((b :: B).map fun i => (i, 1))).filter (fun p => p.2 == 1) from by
        norm_num]
      rw [List.map_cons, addSparse_filter_map A (b :: B)]
      simp [Binary.symmXor, hab]
    · by_cases hba : b < a
      · rw [show Binary.addSparse ((a :: A).map fun i => (i, (1 : Int)))
            ((b :: B).map fun i => (i, 1))
            = (b, 1) :: Binary.addSparse ((a :: A).map fun i => (i, (1 : Int)))
              (B.map fun i => (i, 1)) from by
          simp [Binary.addSparse, hab, hba]]
        rw [show ((b, (1 : Int)) :: Binary.addSparse
            ((a :: A).map fun i => (i, (1 : Int)))
            (B.map fun i => (i, 1))).filter (fun p => p.2 == 1)
            = (b, (1 : Int)) :: (Binary.addSparse
              ((a :: A).map fun i => (i, (1 : Int)))
              (B.map fun i => (i, 1))).filter (fun p => p.2 == 1) from by
          norm_num]
        rw [List.map_cons, addSparse_filter_map (a :: A) B]
        simp [Binary.symmXor, hab, hba]
      · have hbeq : a = b := le_antisymm (le_of_not_lt hba) (le_of_not_lt hab)
        subst hbeq
        rw [show Binary.addSparse ((a :: A).map fun i => (i, (1 : Int)))
            ((a :: B).map fun i => (i, 1))
            = (a, 1 + 1) :: Binary.addSparse (A.map fun i => (i, (1 : Int)))
              (B.map fun i => (i, 1)) from by
          simp [Binary.addSparse]]
        rw [show ((a, (1 : Int) + 1) :: Binary.addSparse
            (A.map fun i => (i, (1 : Int)))
            (B.map fun i => (i, 1))).filter (fun p => p.2 == 1)
            = (Binary.addSparse (A.map fun i => (i, (1 : Int)))
              (B.map fun i => (i, 1))).filter (fun p => p.2 == 1) from by
          norm_num]
        rw [addSparse_filter_map A B]
        simp [Binary.symmXor]
termination_by A B => A.length + B.length

lemma mem_symmXor : ∀ (A B : List Nat), A.Chain' (· < ·) → B.Chain' (· < ·) →
    ∀ i, i ∈ Binary.symmXor A B ↔ Xor' (i ∈ A) (i ∈ B)
  | [], B, _, _, i => by simp [Binary.symmXor, Xor']
  | a :: A, [], _, _, i => by simp [Binary.symmXor, Xor']
  | a :: A, b :: B, hA, hB, i => by
    have hA' := chain_lt_tail hA
    have hB' := chain_lt_tail hB
    by_cases hab : a < b
    · have ih := mem_symmXor A (b :: B) hA' hB
      rw [show Binary.symmXor (a :: A) (b :: B)
          = a :: Binary.symmXor A (b :: B) from by simp [Binary.symmXor, hab]]
      by_cases hia : i = a
      · subst hia
        have h1 : i ∉ b :: B := lt_head_not_mem hab hB
        have h2 : i ∉ A := chain_lt_not_mem hA
        simp [Xor', h1, h2]
      · rw [List.mem_cons, or_iff_right hia, ih i]
        simp [Xor', List.mem_cons, hia]
    · by_cases hba : b < a
      · have ih := mem_symmXor (a :: A) B hA hB'
        rw [show Binary.symmXor (a :: A) (b :: B)
            = b :: Binary.symmXor (a :: A) B from by
          simp [Binary.symmXor, hab, hba]]
        by_cases hib : i = b
        · subst hib
          have h1 : i ∉ a :: A := lt_head_not_mem hba hA
          have h2 : i ∉ B := chain_lt_not_mem hB
          simp [Xor', h1, h2]
        · rw [List.mem_cons, or_iff_right hib, ih i]
          simp [Xor', List.mem_cons, hib]
      · have hbeq : a = b := le_antisymm (le_of_not_lt hba) (le_of_not_lt hab)
        subst hbeq
        have ih := mem_symmXor A B hA' hB'
        rw [show Binary.symmXor (a :: A) (a :: B)
            = Binary.symmXor A B from by simp [Binary.symmXor]]
        rw [ih i]
        by_cases hia : i = a
        · subst hia
          simp [Xor', chain_lt_not_mem hA, chain_lt_not_mem hB]
        · simp [Xor', List.mem_cons, hia]
termination_by A B _ _ _ => A.length + B.length

lemma symmXor_pairwise_sub : ∀ (A B : List Nat),
    A.Pairwise (· < ·) → B.Pairwise (· < ·) →
    (Binary.symmXor A B).Pairwise (· < ·) ∧
      ∀ i ∈ Binary.symmXor A B, i ∈ A ∨ i ∈ B
  | [], B, _, hB => by
    rw [show Binary.symmXor [] B = B from by simp [Binary.symmXor]]
    exact ⟨hB, fun i hi => Or.inr hi⟩
  | a :: A, [], hA, _ => by
    rw [show Binary.symmXor (a :: A) [] = a :: A from by simp [Binary.symmXor]]
    exact ⟨hA, fun i hi => Or.inl hi⟩
  | a :: A, b :: B, hA, hB => by
    obtain ⟨ha1, hA'⟩ := List.pairwise_cons.mp hA
    obtain ⟨hb1, hB'⟩ := List.pairwise_cons.mp hB
    by_cases hab : a < b
    · obtain ⟨ihp, ihs⟩ := symmXor_pairwise_sub A (b :: B) hA' hB
      rw [show Binary.symmXor (a :: A) (b :: B)
          = a :: Binary.symmXor A (b :: B) from by simp [Binary.symmXor, hab]]
      constructor
      · rw [List.pairwise_cons]
        refine ⟨?_, ihp⟩
        intro y hy
        rcases ihs y hy with hyA | hyB
        · exact ha1 y hyA
        · rcases List.mem_cons.mp hyB with rfl | hyB'
          · exact hab
          · exact lt_trans hab (hb1 y hyB')
      · intro i hi
        rcases List.mem_cons.mp hi with rfl | hi'
        · exact Or.inl (List.mem_cons_self _ _)
        · rcases ihs i hi' with h | h
          · exact Or.inl (List.mem_cons_of_mem _ h)
          · exact Or.inr h
    · by_cases hba : b < a
      · obtain ⟨ihp, ihs⟩ := symmXor_pairwise_sub (a :: A) B hA hB'
        rw [show Binary.symmXor (a :: A) (b :: B)
            = b :: Binary.symmXor (a :: A) B from by
          simp [Binary.symmXor, hab, hba]]
        constructor
        · rw [List.pairwise_cons]
          refine ⟨?_, ihp⟩
          intro y hy
          rcases ihs y hy with hyA | hyB
          · rcases List.mem_cons.mp hyA with rfl | hyA'
            · exact hba
            · exact lt_trans hba (ha1 y hyA')
          · exact hb1 y hyB
        · intro i hi
          rcases List.mem_cons.mp hi with rfl | hi'
          · exact Or.inr (List.mem_cons_self _ _)
          · rcases ihs i hi' with h | h
            · exact Or.inl h
            · exact Or.inr (List.mem_cons_of_mem _ h)
      · have hbeq : a = b := le_antisymm (le_of_not_lt hba) (le_of_not_lt hab)
        subst hbeq
        obtain ⟨ihp, ihs⟩ := symmXor_pairwise_sub A B hA' hB'
        rw [show Binary.symmXor (a :: A) (a :: B)
            = Binary.symmXor A B from by simp [Binary.symmXor]]
        exact ⟨ihp, fun i hi =>
          (ihs i hi).imp (List.mem_cons_of_mem _) (List.mem_cons_of_mem _)⟩
termination_by A B _ _ => A.length + B.length

lemma symmXor_chain {A B : List Nat} (hA : A.Chain' (· < ·))
    (hB : B.Chain' (· < ·)) : (Binary.symmXor A B).Chain' (· < ·) :=
  chain_lt_pairwise.mpr
    (symmXor_pairwise_sub A B (chain_lt_pairwise.mp hA)
      (chain_lt_pairwise.mp hB)).1

lemma symmXor_subset {A B : List Nat} (hA : A.Chain' (· < ·))
    (hB : B.Chain' (· < ·)) : ∀ i ∈ Binary.symmXor A B, i ∈ A ∨ i ∈ B :=
  (symmXor_pairwise_sub A B (chain_lt_pairwise.mp hA)
    (chain_lt_pairwise.mp hB)).2

lemma pairsOf_WF {v : CsVec} (h : Binary.WF v) :
    Binary.pairsOf v = v.indices.map fun i => (i, (1 : Int)) := by
  rw [Binary.pairsOf, h.2.2]
  generalize v.indices = A
  induction A with
  | nil => rfl
  | cons a t ih => simpa [List.replicate_succ] using ih

lemma xor_ok {a b : CsVec} (ha : Binary.WF a) (hb : Binary.WF b)
    (hdim : a.dim = b.dim) :
    Binary.xor a b = .ok ⟨a.dim, Binary.symmXor a.indices b.indices,
      List.replicate (Binary.symmXor a.indices b.indices).length 1⟩ := by
  have hchain := symmXor_chain ha.1 hb.1
  have hbound : ∀ i ∈ Binary.symmXor a.indices b.indices, i < a.dim := by
    intro i hi
    rcases symmXor_subset ha.1 hb.1 i hi with h | h
    · exact ha.2.1 i h
    · exact hdim ▸ hb.2.1 i h
  rw [show Binary.xor a b = Binary.from_indices a.dim
      (((Binary.addSparse (Binary.pairsOf a) (Binary.pairsOf b)).filter
        (fun p => p.2 == 1)).map Prod.fst) from by
    simp [Binary.xor, hdim]]
  rw [pairsOf_WF ha, pairsOf_WF hb, addSparse_filter_map]
  exact Binary.from_indices_sorted_self hchain hbound

lemma WF_of_symmXor {a b : CsVec} (ha : Binary.WF a) (hb : Binary.WF b)
    (hdim : a.dim = b.dim) :
    Binary.WF ⟨a.dim, Binary.symmXor a.indices b.indices,
      List.replicate (Binary.symmXor a.indices b.indices).length 1⟩ := by
  refine ⟨symmXor_chain ha.1 hb.1, ?_, by simp⟩
  intro i hi
  rcases symmXor_subset ha.1 hb.1 i hi with h | h
  · exact ha.2.1 i h
  · exact hdim ▸ hb.2.1 i h

/-- Claim C1: for sparse binary vectors of equal dimension, the active set of
`xor` (bind) is exactly the symmetric difference of the operands' active
sets; consequently `bind(bind(a,b), b) = a` and `bind(a,a)` is the all-zero
vector — exactly, not approximately. -/
theorem claim_C1 (a b : CsVec) (ha : Binary.WF a) (hb : Binary.WF b)
    (hdim : a.dim = b.dim) :
    (∃ c, Binary.xor a b = .ok c ∧ c.dim = a.dim ∧
      (∀ i, i ∈ c.indices ↔ Xor' (i ∈ a.indices) (i ∈ b.indices)) ∧
      Binary.xor c b = .ok a) ∧
    Binary.xor a a = .ok ⟨a.dim, [], []⟩ := by
  have hsym := mem_symmXor a.indices b.indices ha.1 hb.1
  constructor
  · refine ⟨⟨a.dim, Binary.symmXor a.indices b.indices,
      List.replicate (Binary.symmXor a.indices b.indices).length 1⟩,
      xor_ok ha hb hdim, rfl, hsym, ?_⟩
    have hcWF : Binary.WF ⟨a.dim, Binary.symmXor a.indices b.indices,
        List.replicate (Binary.symmXor a.indices b.indices).length 1⟩ :=
      WF_of_symmXor ha hb hdim
    have h2 := xor_ok hcWF hb hdim
    dsimp only at h2
    have hix : Binary.symmXor (Binary.symmXor a.indices b.indices) b.indices
        = a.indices := by
      apply eq_of_chain_lt_ext
        (symmXor_chain (symmXor_chain ha.1 hb.1) hb.1) ha.1
      intro i
      rw [mem_symmXor _ _ (symmXor_chain ha.1 hb.1) hb.1 i]
      rw [show (i ∈ Binary.symmXor a.indices b.indices) ↔ _ from hsym i]
      by_cases hp : i ∈ a.indices <;> by_cases hq : i ∈ b.indices <;>
        simp [Xor', hp, hq]
    rw [h2, hix]
    have hdat := ha.2.2
    obtain ⟨d, ix, dat⟩ := a
    simp only [Outcome.ok.injEq, CsVec.mk.injEq]
    exact ⟨trivial, trivial, hdat.symm⟩
  · have h := xor_ok ha ha rfl
    have hix : Binary.symmXor a.indices a.indices = [] := by
      apply eq_of_chain_lt_ext (symmXor_chain ha.1 ha.1) List.chain'_nil
      intro i
      rw [mem_symmXor a.indices a.indices ha.1 ha.1 i]
      simp [Xor']
    rw [h, hix]
    rfl

/-- Claim C1 witness: the theorem at the concrete pair of the repository's
own test (dimension 10, active sets `{1,3,5}` and `{3,4,5}`). -/
theorem claim_C1_witness :
    (∃ c, Binary.xor ⟨10, [1, 3, 5], [1, 1, 1]⟩ ⟨10, [3, 4, 5], [1, 1, 1]⟩
        = .ok c ∧
      c.dim = (⟨10, [1, 3, 5], [1, 1, 1]⟩ : CsVec).dim ∧
      (∀ i, i ∈ c.indices ↔
        Xor' (i ∈ (⟨10, [1, 3, 5], [1, 1, 1]⟩ : CsVec).indices)
          (i ∈ (⟨10, [3, 4, 5], [1, 1, 1]⟩ : CsVec).indices)) ∧
      Binary.xor c ⟨10, [3, 4, 5], [1, 1, 1]⟩
        = .ok ⟨10, [1, 3, 5], [1, 1, 1]⟩) ∧
    Binary.xor ⟨10, [1, 3, 5], [1, 1, 1]⟩ ⟨10, [1, 3, 5], [1, 1, 1]⟩
      = .ok ⟨10, [], []⟩ :=
  claim_C1 ⟨10, [1, 3, 5], [1, 1, 1]⟩ ⟨10, [3, 4, 5], [1, 1, 1]⟩
    ⟨by norm_num [List.chain'_cons], by decide, by decide⟩
    ⟨by norm_num [List.chain'_cons], by decide, by decide⟩ rfl

/-! ## Claim C2: cyclic shifts -/

lemma int_wrap_eq_emod {d n0 : Int} (_hd : 0 < d) (hlo : -d ≤ n0)
    (hhi : n0 < 2 * d) :
    (if n0 < 0 then n0 + d else if n0 ≥ d then n0 - d else n0) = n0 % d := by
  by_cases h1 : n0 < 0
  · rw [if_pos h1]
    rw [show n0 % d = (n0 + d) % d from by
      rw [show n0 + d = n0 + d * 1 by ring, Int.add_mul_emod_self_left]]
    rw [Int.emod_eq_of_lt (by omega) (by omega)]
  · rw [if_neg h1]
    by_cases h2 : n0 ≥ d
    · rw [if_pos h2]
      rw [show n0 % d = (n0 - d) % d from by
        rw [show n0 - d = n0 + d * (-1) by ring, Int.add_mul_emod_self_left]]
      rw [Int.emod_eq_of_lt (by omega) (by omega)]
    · rw [if_neg h2, Int.emod_eq_of_lt (by omega) (by omega)]

lemma dvd_bounded_eq_zero {d x : Int} (hd : 0 < d) (hdvd : d ∣ x)
    (h1 : -d < x) (h2 : x < d) : x = 0 := by
  obtain ⟨k, rfl⟩ := hdvd
  have : k = 0 := by nlinarith
  simp [this]

lemma shift_mod_inj {d s i j : Int} (hd : 0 < d) (hi1 : 0 ≤ i) (hi2 : i < d)
    (hj1 : 0 ≤ j) (hj2 : j < d) (h : (i + s) % d = (j + s) % d) : i = j := by
  have h0 : (i + s - (j + s)) % d = 0 :=
    Int.emod_eq_emod_iff_emod_sub_eq_zero.mp h
  have hdvd : d ∣ (i - j) := Int.dvd_of_emod_eq_zero (by
    rw [show i - j = i + s - (j + s) by ring]; exact h0)
  have := dvd_bounded_eq_zero hd hdvd (by omega) (by omega)
  omega

lemma dim_pos_of_mem {v : CsVec} (hWF : Binary.WF v) {idx : Nat}
    (hidx : idx ∈ v.indices) : (0 : Int) < (v.dim : Int) := by
  have := hWF.2.1 idx hidx
  omega

lemma cyclic_shift_eq_mod {v : CsVec} {s : Int} (hWF : Binary.WF v)
    (h64 : (v.dim : Int) ≤ 2 ^ 64) (hs1 : -(v.dim : Int) ≤ s)
    (hs2 : s ≤ (v.dim : Int)) :
    Binary.cyclic_shift v s = Binary.from_indices v.dim
      (v.indices.map fun (idx : Nat) =>
        (((idx : Int) + s) % (v.dim : Int)).toNat) := by
  simp only [Binary.cyclic_shift]
  congr 1
  apply List.map_congr_left
  intro idx hidx
  have hd : (0 : Int) < (v.dim : Int) := dim_pos_of_mem hWF hidx
  have hidxd : (idx : Int) < (v.dim : Int) := by
    have := hWF.2.1 idx hidx; omega
  rw [int_wrap_eq_emod hd (by omega) (by omega)]
  rw [Binary.usizeCast]
  have h0 : 0 ≤ ((idx : Int) + s) % (v.dim : Int) :=
    Int.emod_nonneg _ (by omega)
  have h1 : ((idx : Int) + s) % (v.dim : Int) < (v.dim : Int) :=
    Int.emod_lt_of_pos _ hd
  rw [Int.emod_eq_of_lt h0 (by omega)]

lemma shift_map_bound {v : CsVec} {s : Int} (hWF : Binary.WF v) :
    ∀ i ∈ v.indices.map (fun (idx : Nat) =>
      (((idx : Int) + s) % (v.dim : Int)).toNat), i < v.dim := by
  intro i hi
  obtain ⟨j, hj, rfl⟩ := List.mem_map.mp hi
  have hd := dim_pos_of_mem hWF hj
  have h0 : 0 ≤ ((j : Int) + s) % (v.dim : Int) := Int.emod_nonneg _ (by omega)
  have h1 : ((j : Int) + s) % (v.dim : Int) < (v.dim : Int) :=
    Int.emod_lt_of_pos _ hd
  omega

lemma shift_map_nodup {v : CsVec} {s : Int} (hWF : Binary.WF v) :
    (v.indices.map (fun (idx : Nat) =>
      (((idx : Int) + s) % (v.dim : Int)).toNat)).Nodup := by
  apply List.Nodup.map_on ?_ (pairwise_lt_nodup (chain_lt_pairwise.mp hWF.1))
  intro x hx y hy hxy
  have hd := dim_pos_of_mem hWF hx
  have hxd : (x : Int) < (v.dim : Int) := by have := hWF.2.1 x hx; omega
  have hyd : (y : Int) < (v.dim : Int) := by have := hWF.2.1 y hy; omega
  have hmm : ((x : Int) + s) % (v.dim : Int) = ((y : Int) + s) % (v.dim : Int) := by
    have h0x : 0 ≤ ((x : Int) + s) % (v.dim : Int) := Int.emod_nonneg _ (by omega)
    have h0y : 0 ≤ ((y : Int) + s) % (v.dim : Int) := Int.emod_nonneg _ (by omega)
    omega
  have := shift_mod_inj hd (by omega) hxd (by omega) hyd hmm
  omega

lemma cyclic_shift_ok {v : CsVec} {s : Int} (hWF : Binary.WF v)
    (h64 : (v.dim : Int) ≤ 2 ^ 64) (hs1 : -(v.dim : Int) ≤ s)
    (hs2 : s ≤ (v.dim : Int)) :
    Binary.cyclic_shift v s = .ok ⟨v.dim,
      (v.indices.map (fun (idx : Nat) =>
        (((idx : Int) + s) % (v.dim : Int)).toNat)).insertionSort (· ≤ ·),
      List.replicate v.indices.length 1⟩ := by
  rw [cyclic_shift_eq_mod hWF h64 hs1 hs2]
  rw [Binary.from_indices_ok (insertionSort_chain_of_nodup (shift_map_nodup hWF))
    (shift_map_bound hWF)]
  simp

lemma shift_unshift {d s j : Int} (hj1 : 0 ≤ j) (hj2 : j < d) :
    (((j + s) % d) - s) % d = j := by
  rw [Int.sub_emod, Int.emod_emod_of_dvd _ (dvd_refl d), ← Int.sub_emod]
  rw [show j + s - s = j by ring]
  exact Int.emod_eq_of_lt hj1 hj2

lemma unshift_elem {d s : Int} {j : Nat} (hd : 0 < d) (hj : (j : Int) < d) :
    ((((((j : Int) + s) % d).toNat : Int) + -s) % d).toNat = j := by
  have h0 : 0 ≤ ((j : Int) + s) % d := Int.emod_nonneg _ (by omega)
  rw [Int.toNat_of_nonneg h0]
  rw [show ((j : Int) + s) % d + -s = ((j : Int) + s) % d - s by ring]
  rw [shift_unshift (by omega) hj]
  omega

lemma cyclic_shift_inverse {v w : CsVec} {s : Int} (hWF : Binary.WF v)
    (hwWF : Binary.WF w) (hdim : w.dim = v.dim)
    (h64 : (v.dim : Int) ≤ 2 ^ 64) (hs1 : -(v.dim : Int) ≤ s)
    (hs2 : s ≤ (v.dim : Int))
    (hmem : ∀ i : Nat, i ∈ w.indices ↔
      ∃ j ∈ v.indices, (((j : Int) + s) % (v.dim : Int)).toNat = i) :
    Binary.cyclic_shift w (-s) = .ok v := by
  have h := cyclic_shift_ok (v := w) (s := -s) hwWF
    (by rw [hdim]; exact h64) (by rw [hdim]; omega) (by rw [hdim]; omega)
  rw [h]
  have hidx : ((w.indices.map (fun (idx : Nat) =>
      (((idx : Int) + -s) % (w.dim : Int)).toNat)).insertionSort (· ≤ ·))
      = v.indices := by
    apply eq_of_chain_lt_ext
      (insertionSort_chain_of_nodup (shift_map_nodup hwWF)) hWF.1
    intro i
    rw [List.mem_insertionSort, List.mem_map]
    constructor
    · rintro ⟨k, hk, rfl⟩
      obtain ⟨j, hj, rfl⟩ := (hmem k).mp hk
      have hd : (0 : Int) < (v.dim : Int) := dim_pos_of_mem hWF hj
      have hjd : (j : Int) < (v.dim : Int) := by have := hWF.2.1 j hj; omega
      rw [hdim, unshift_elem hd hjd]
      exact hj
    · intro hi
      refine ⟨(((i : Int) + s) % (v.dim : Int)).toNat,
        (hmem _).mpr ⟨i, hi, rfl⟩, ?_⟩
      have hd : (0 : Int) < (v.dim : Int) := dim_pos_of_mem hWF hi
      have hid : (i : Int) < (v.dim : Int) := by have := hWF.2.1 i hi; omega
      rw [hdim, unshift_elem hd hid]
  have hlen : w.indices.length = v.indices.length := by
    have hcg := congrArg List.length hidx
    rw [(List.perm_insertionSort _ _).length_eq, List.length_map] at hcg
    exact hcg
  rw [hidx, hdim, hlen, ← hWF.2.2]

lemma shift_foldl_length (array : List ℚ) (s n : Int) :
    ∀ (olds : List Nat) (init : List ℚ),
      (olds.foldl (Dense.shiftStep array s n) init).length = init.length
  | [], _ => rfl
  | o :: olds, init => by
    rw [List.foldl_cons, shift_foldl_length array s n olds _, Dense.shiftStep,
      List.length_set]

lemma shift_foldl_untouched (array : List ℚ) (s n : Int) :
    ∀ (olds : List Nat) (init : List ℚ) (k : Nat),
      (∀ o ∈ olds, ((((o : Int) + s) % n).toNat) ≠ k) →
      (olds.foldl (Dense.shiftStep array s n) init).getD k 0 = init.getD k 0
  | [], _, _, _ => rfl
  | o :: olds, init, k, h => by
    rw [List.foldl_cons, shift_foldl_untouched array s n olds _ k
      (fun o' ho' => h o' (List.mem_cons_of_mem _ ho'))]
    rw [Dense.shiftStep, getD_set_ne (h o (List.mem_cons_self _ _))]

lemma shift_foldl_getD (array : List ℚ) (s n : Int) :
    ∀ (olds : List Nat) (init : List ℚ) (o : Nat), olds.Nodup → o ∈ olds →
      (∀ o' ∈ olds, ((((o' : Int) + s) % n).toNat) = ((((o : Int) + s) % n).toNat)
        → o' = o) →
      ((((o : Int) + s) % n).toNat) < init.length →
      (olds.foldl (Dense.shiftStep array s n) init).getD
        ((((o : Int) + s) % n).toNat) 0 = array.getD o 0
  | [], _, o, _, ho, _, _ => absurd ho (List.not_mem_nil o)
  | x :: olds, init, o, hnd, ho, hinj, hlt => by
    rw [List.foldl_cons]
    rcases List.mem_cons.mp ho with rfl | ho'
    · have hnotin : ∀ o' ∈ olds,
          ((((o' : Int) + s) % n).toNat) ≠ ((((o : Int) + s) % n).toNat) := by
        intro o' ho'' heq
        have hoo := hinj o' (List.mem_cons_of_mem _ ho'') heq
        subst hoo
        exact (List.nodup_cons.mp hnd).1 ho''
      rw [shift_foldl_untouched array s n olds _ _ hnotin]
      rw [Dense.shiftStep, getD_set_self hlt]
    · refine shift_foldl_getD array s n olds _ o (List.nodup_cons.mp hnd).2 ho'
        (fun o' ho'' heq => hinj o' (List.mem_cons_of_mem _ ho'') heq) ?_
      rw [Dense.shiftStep, List.length_set]
      exact hlt

lemma dense_shift_length (arr : List ℚ) (s : Int) :
    (Dense.cyclic_shift arr s).length = arr.length := by
  rw [Dense.cyclic_shift, shift_foldl_length, List.length_replicate]

lemma dense_shift_getD (arr : List ℚ) (s : Int) {i : Nat} (hi : i < arr.length) :
    (Dense.cyclic_shift arr s).getD
      ((((i : Int) + s) % (arr.length : Int)).toNat) 0 = arr.getD i 0 := by
  have hn : (0 : Int) < (arr.length : Int) := by omega
  rw [Dense.cyclic_shift]
  apply shift_foldl_getD arr s (arr.length : Int) (List.range arr.length)
    (List.replicate arr.length 0) i (List.nodup_range _)
    (List.mem_range.mpr hi)
  · intro o' ho' heq
    have ho'2 : o' < arr.length := List.mem_range.mp ho'
    have h0x : 0 ≤ ((o' : Int) + s) % (arr.length : Int) :=
      Int.emod_nonneg _ (by omega)
    have h0y : 0 ≤ ((i : Int) + s) % (arr.length : Int) :=
      Int.emod_nonneg _ (by omega)
    have hmm : ((o' : Int) + s) % (arr.length : Int)
        = ((i : Int) + s) % (arr.length : Int) := by omega
    have := shift_mod_inj hn (by omega) (by omega) (by omega) (by omega) hmm
    omega
  · have h1 : ((i : Int) + s) % (arr.length : Int) < (arr.length : Int) :=
      Int.emod_lt_of_pos _ hn
    have h0 : 0 ≤ ((i : Int) + s) % (arr.length : Int) :=
      Int.emod_nonneg _ (by omega)
    rw [List.length_replicate]
    omega

lemma dense_shift_roundtrip (arr : List ℚ) (s : Int) :
    Dense.cyclic_shift (Dense.cyclic_shift arr s) (-s) = arr := by
  rcases Nat.eq_zero_or_pos arr.length with hz | hpos
  · have hnil : arr = [] := List.eq_nil_of_length_eq_zero hz
    subst hnil
    rfl
  · apply List.ext_getElem
    · rw [dense_shift_length, dense_shift_length]
    · intro k h1 h2
      have hk : k < arr.length := by
        rwa [dense_shift_length, dense_shift_length] at h1
      have hn : (0 : Int) < (arr.length : Int) := by omega
      rw [← List.getD_eq_getElem _ 0 h1, ← List.getD_eq_getElem _ 0 h2]
      have h0 : 0 ≤ ((k : Int) + s) % (arr.length : Int) :=
        Int.emod_nonneg _ (by omega)
      have h1' : ((k : Int) + s) % (arr.length : Int) < (arr.length : Int) :=
        Int.emod_lt_of_pos _ hn
      set i : Nat := (((k : Int) + s) % (arr.length : Int)).toNat with hi
      have hilt : i < arr.length := by omega
      have hilt2 : i < (Dense.cyclic_shift arr s).length := by
        rw [dense_shift_length]; exact hilt
      have houter := dense_shift_getD (Dense.cyclic_shift arr s) (-s) hilt2
      have hkey : (((i : Int) + -s)
          % (((Dense.cyclic_shift arr s).length : Nat) : Int)).toNat = k := by
        rw [dense_shift_length]
        have hcast : (i : Int) = ((k : Int) + s) % (arr.length : Int) := by omega
        rw [hcast]
        rw [show ((k : Int) + s) % (arr.length : Int) + -s
          = ((k : Int) + s) % (arr.length : Int) - s by ring]
        rw [shift_unshift (by omega) (by omega)]
        omega
      rw [hkey] at houter
      rw [houter]
      have hinner := dense_shift_getD arr s hk
      rw [← hi] at hinner
      exact hinner

/-- Claim C2 amended: the dense `cyclic_shift` maps position `i` to
`(i + s) mod n` and satisfies `permute(permute(v, s), -s) = v` for every
shift `s`.  The sparse binary `cyclic_shift` does the same only for shifts
with `|s| ≤ dimension` (the source normalizes each shifted index by at most
one addition or subtraction of the dimension): within that range each active
index `i` moves to `(i + s) mod dimension` and the round trip restores `v`;
outside it the shifted index stays out of range and the rebuild aborts
(see the counterexample). -/
theorem claim_C2_amended :
    (∀ (v : CsVec) (s : Int), Binary.WF v → (v.dim : Int) ≤ 2 ^ 64 →
      -(v.dim : Int) ≤ s → s ≤ (v.dim : Int) →
      ∃ w, Binary.cyclic_shift v s = .ok w ∧ w.dim = v.dim ∧
        (∀ i : Nat, i ∈ w.indices ↔
          ∃ j ∈ v.indices, (((j : Int) + s) % (v.dim : Int)).toNat = i) ∧
        Binary.cyclic_shift w (-s) = .ok v) ∧
    (∀ (arr : List ℚ) (s : Int),
      (Dense.cyclic_shift arr s).length = arr.length ∧
      (∀ i, i < arr.length →
        (Dense.cyclic_shift arr s).getD
          ((((i : Int) + s) % (arr.length : Int)).toNat) 0 = arr.getD i 0) ∧
      Dense.cyclic_shift (Dense.cyclic_shift arr s) (-s) = arr) := by
  constructor
  · intro v s hWF h64 hs1 hs2
    refine ⟨⟨v.dim, (v.indices.map (fun (idx : Nat) =>
        (((idx : Int) + s) % (v.dim : Int)).toNat)).insertionSort (· ≤ ·),
        List.replicate v.indices.length 1⟩,
      cyclic_shift_ok hWF h64 hs1 hs2, rfl, ?_, ?_⟩
    · intro i
      show i ∈ (v.indices.map (fun (idx : Nat) =>
        (((idx : Int) + s) % (v.dim : Int)).toNat)).insertionSort (· ≤ ·) ↔ _
      rw [List.mem_insertionSort, List.mem_map]
    · apply cyclic_shift_inverse (w := ⟨v.dim, (v.indices.map (fun (idx : Nat) =>
          (((idx : Int) + s) % (v.dim : Int)).toNat)).insertionSort (· ≤ ·),
          List.replicate v.indices.length 1⟩) hWF ?_ rfl h64 hs1 hs2 ?_
      · refine ⟨insertionSort_chain_of_nodup (shift_map_nodup hWF), ?_, ?_⟩
        · intro i hi
          exact shift_map_bound hWF i ((List.mem_insertionSort _).mp hi)
        · show List.replicate v.indices.length 1 = _
          rw [(List.perm_insertionSort _ _).length_eq, List.length_map]
      · intro i
        show i ∈ (v.indices.map (fun (idx : Nat) =>
          (((idx : Int) + s) % (v.dim : Int)).toNat)).insertionSort (· ≤ ·) ↔ _
        rw [List.mem_insertionSort, List.mem_map]
  · intro arr s
    exact ⟨dense_shift_length arr s, fun i hi => dense_shift_getD arr s hi,
      dense_shift_roundtrip arr s⟩

/-- Claim C2 witness: the amended binary statement at the repository's own
test vector (dimension 10, active `{1,3,5,9}`, shift 2). -/
theorem claim_C2_witness :
    ∃ w, Binary.cyclic_shift ⟨10, [1, 3, 5, 9], [1, 1, 1, 1]⟩ 2 = .ok w ∧
      w.dim = 10 ∧
      (∀ i : Nat, i ∈ w.indices ↔
        ∃ j ∈ ([1, 3, 5, 9] : List Nat),
          (((j : Int) + 2) % ((10 : Nat) : Int)).toNat = i) ∧
      Binary.cyclic_shift w (-2) = .ok ⟨10, [1, 3, 5, 9], [1, 1, 1, 1]⟩ :=
  claim_C2_amended.1 ⟨10, [1, 3, 5, 9], [1, 1, 1, 1]⟩ 2
    ⟨by norm_num [List.chain'_cons], by decide, by decide⟩
    (by norm_num) (by norm_num) (by norm_num)

/-! ## Claim C8: bundling identical copies -/

lemma getD_map_range {α : Type} (h : Nat → α) {m size : Nat} (hm : m < size)
    (d : α) : ((List.range size).map h).getD m d = h m := by
  rw [List.getD_eq_getElem _ _ (by simpa using hm), List.getElem_map,
    List.getElem_range]

lemma set_map_range {α : Type} (h : Nat → α) {m size : Nat} (a : α) :
    ((List.range size).map h).set m a
      = (List.range size).map (fun idx => if idx = m then a else h idx) := by
  apply List.ext_getElem
  · simp
  · intro n h1 h2
    rw [List.getElem_set]
    simp only [List.getElem_map, List.getElem_range]
    by_cases hnm : m = n
    · subst hnm; simp
    · rw [if_neg hnm, if_neg (fun h' => hnm h'.symm)]

lemma foldlM_option_snoc {α β : Type} (f : β → α → Option β) (b : β)
    (l : List α) (a : α) :
    List.foldlM f b (l ++ [a]) = (List.foldlM f b l).bind (fun x => f x a) := by
  rw [List.foldlM_append]
  cases hfold : List.foldlM f b l with
  | none => rfl
  | some x =>
    show List.foldlM f x [a] = f x a
    cases hfa : f x a <;> simp [List.foldlM_cons, List.foldlM_nil, hfa]

lemma voteStep_upTo (vec : CsVec) (size : Nat) (f : Nat → Int)
    (hrange : ∀ idx, idx < size →
      -32768 ≤ f idx + (if vec.indices.contains idx then 1 else -1) ∧
      f idx + (if vec.indices.contains idx then 1 else -1) ≤ 32767) :
    ∀ m, m ≤ size →
    (List.range m).foldlM (fun vs index =>
      let value := vs.getD index 0 + (if vec.indices.contains index then 1 else -1)
      if -32768 ≤ value ∧ value ≤ 32767 then some (vs.set index value)
      else none) ((List.range size).map f)
      = some ((List.range size).map (fun idx =>
        if idx < m then f idx + (if vec.indices.contains idx then 1 else -1)
        else f idx))
  | 0, _ => by
    rw [List.range_zero, List.foldlM_nil]
    have hmap : ((List.range size).map (fun idx =>
        if idx < 0 then f idx + (if vec.indices.contains idx then 1 else -1)
        else f idx)) = (List.range size).map f := by
      apply List.map_congr_left
      intro idx _
      simp
    rw [hmap]
    rfl
  | m + 1, hm => by
    rw [List.range_succ, foldlM_option_snoc,
      voteStep_upTo vec size f hrange m (by omega)]
    rw [Option.some_bind]
    simp only []
    rw [getD_map_range _ (show m < size by omega)]
    rw [if_neg (lt_irrefl m)]
    rw [if_pos (hrange m (by omega))]
    rw [set_map_range]
    congr 1
    apply List.map_congr_left
    intro idx _
    by_cases h1 : idx = m
    · subst h1
      rw [if_pos (rfl : idx = idx), if_pos (show idx < idx + 1 by omega)]
    · rw [if_neg h1]
      by_cases h2 : idx < m
      · rw [if_pos h2, if_pos (show idx < m + 1 by omega)]
      · rw [if_neg h2, if_neg (show ¬ idx < m + 1 by omega)]

lemma voteStep_map (vec : CsVec) (size : Nat) (f : Nat → Int)
    (hrange : ∀ idx, idx < size →
      -32768 ≤ f idx + (if vec.indices.contains idx then 1 else -1) ∧
      f idx + (if vec.indices.contains idx then 1 else -1) ≤ 32767) :
    Binary.voteStep size vec ((List.range size).map f)
      = some ((List.range size).map (fun idx =>
          f idx + (if vec.indices.contains idx then 1 else -1))) := by
  rw [show Binary.voteStep size vec ((List.range size).map f)
      = (List.range size).foldlM (fun vs index =>
        let value := vs.getD index 0
          + (if vec.indices.contains index then 1 else -1)
        if -32768 ≤ value ∧ value ≤ 32767 then some (vs.set index value)
        else none) ((List.range size).map f) from rfl]
  rw [voteStep_upTo vec size f hrange size (le_refl _)]
  congr 1
  apply List.map_congr_left
  intro idx hidx
  rw [if_pos (List.mem_range.mp hidx)]

lemma bind_some_eq {α β : Type} (x : α) (g : α → Option β) :
    (do let y ← some x; g y) = g x := rfl

lemma votes_replicate (vec : CsVec) (size : Nat) :
    ∀ (k m : Nat), m + k ≤ 32767 →
    (List.replicate k vec).foldlM (fun votes v => Binary.voteStep size v votes)
      ((List.range size).map (fun idx =>
        if vec.indices.contains idx then ((m : Nat) : Int)
        else -((m : Nat) : Int)))
      = some ((List.range size).map (fun idx =>
        if vec.indices.contains idx then (((m + k : Nat)) : Int)
        else -(((m + k : Nat)) : Int)))
  | 0, m, hmk => by
    rw [List.replicate_zero, List.foldlM_nil]
    simp
  | k + 1, m, hmk => by
    rw [List.replicate_succ, List.foldlM_cons]
    rw [voteStep_map vec size _ (by
      intro idx hidx
      by_cases hc : vec.indices.contains idx <;> simp [hc] <;> omega)]
    rw [bind_some_eq]
    rw [show ((List.range size).map (fun idx =>
        (if vec.indices.contains idx then ((m : Nat) : Int)
          else -((m : Nat) : Int))
          + (if vec.indices.contains idx then 1 else -1)))
        = (List.range size).map (fun idx =>
          if vec.indices.contains idx then (((m + 1 : Nat)) : Int)
          else -(((m + 1 : Nat)) : Int)) from by
      apply List.map_congr_left
      intro idx _
      by_cases hc : vec.indices.contains idx
      · simp only [if_pos hc]
        push_cast
        ring
      · simp only [if_neg hc]
        push_cast
        ring]
    rw [votes_replicate vec size k (m + 1) (by omega)]
    rw [show m + 1 + k = m + (k + 1) from by omega]

lemma elem_filter_range {v : CsVec} (hWF : Binary.WF v) :
    (List.range v.dim).filter (fun idx => v.indices.contains idx) = v.indices := by
  apply eq_of_chain_lt_ext
  · exact chain_lt_pairwise.mpr ((List.pairwise_lt_range _).filter _)
  · exact hWF.1
  · intro i
    rw [List.mem_filter, List.mem_range]
    constructor
    · rintro ⟨-, h⟩
      exact List.elem_iff.mp h
    · intro hi
      exact ⟨hWF.2.1 i hi, List.elem_iff.mpr hi⟩

/-- Claim C8 amended: `consensus_sum` of `k` identical copies of a well-formed
vector `v` returns `v` unchanged for `1 ≤ k ≤ 32767`; the claim's "any
`k ≥ 1`" fails at `k = 32768`, where the `i16` vote counter overflows and the
operation aborts instead of returning `v` (see the counterexample). -/
theorem claim_C8_amended (v : CsVec) (k : Nat) (tie : Nat → Bool)
    (hWF : Binary.WF v) (hk1 : 1 ≤ k) (hk2 : k ≤ 32767) :
    Binary.consensus_sum (List.replicate k v) tie = .ok v := by
  obtain ⟨k', rfl⟩ : ∃ k', k = k' + 1 := ⟨k - 1, by omega⟩
  rw [List.replicate_succ]
  simp only [Binary.consensus_sum]
  rw [show (v :: List.replicate k' v) = List.replicate (k' + 1) v from
    (List.replicate_succ _ _).symm]
  rw [show List.replicate v.dim (0 : Int) = (List.range v.dim).map (fun idx =>
      if v.indices.contains idx then ((0 : Nat) : Int)
      else -((0 : Nat) : Int)) from by
    apply List.ext_getElem
    · simp
    · intro n h1 h2
      simp only [List.getElem_replicate, List.getElem_map, List.getElem_range]
      split <;> simp]
  rw [votes_replicate v v.dim (k' + 1) 0 (by omega)]
  dsimp only
  have hfilter : List.filter (fun index =>
      if (List.map (fun idx =>
          if v.indices.contains idx = true then (((0 + (k' + 1) : Nat)) : Int)
          else -(((0 + (k' + 1) : Nat)) : Int)) (List.range v.dim)).getD index 0
            > 0 then true
      else if (List.map (fun idx =>
          if v.indices.contains idx = true then (((0 + (k' + 1) : Nat)) : Int)
          else -(((0 + (k' + 1) : Nat)) : Int)) (List.range v.dim)).getD index 0
            < 0 then false
      else tie index) (List.range v.dim)
      = List.filter (fun idx => v.indices.contains idx) (List.range v.dim) := by
    apply List.filter_congr
    intro x hx
    rw [getD_map_range _ (List.mem_range.mp hx)]
    by_cases hc : v.indices.contains x
    · rw [if_pos hc, if_pos (show (((0 + (k' + 1) : Nat)) : Int) > 0 from by
        push_cast; omega)]
      exact hc.symm
    · rw [if_neg hc,
        if_neg (show ¬ (-(((0 + (k' + 1) : Nat)) : Int) > 0) from by
          push_cast; omega),
        if_pos (show (-(((0 + (k' + 1) : Nat)) : Int) < 0) from by
          push_cast; omega)]
      simp only [Bool.not_eq_true] at hc
      exact hc.symm
  rw [hfilter, elem_filter_range hWF, insertionSort_of_chain hWF.1,
    Binary.from_indices_sorted_self hWF.1 hWF.2.1, ← hWF.2.2]

/-- Claim C8 witness: three copies of a concrete vector. -/
theorem claim_C8_witness :
    Binary.consensus_sum (List.replicate 3 ⟨2, [1], [1]⟩) (fun _ => false)
      = .ok ⟨2, [1], [1]⟩ :=
  claim_C8_amended ⟨2, [1], [1]⟩ 3 (fun _ => false)
    ⟨by simp, by decide, by decide⟩ (by omega) (by omega)

lemma consensus_sum_fold_none {v0 : CsVec} {rest : List CsVec} {tie : Nat → Bool}
    (hfold : (v0 :: rest).foldlM (fun votes v => Binary.voteStep v0.dim v votes)
      (List.replicate v0.dim 0) = none) :
    Binary.consensus_sum (v0 :: rest) tie = .panic := by
  simp only [Binary.consensus_sum, hfold]

/-- Claim C8 counterexample: with 32768 identical copies of the dimension-1
vector with active set `{0}`, the `i16` vote counter reaches 32767 and the
next `+= 1` overflows, so the operation aborts instead of returning the
vector — refuting "for any k ≥ 1".  (Under a wrapping-overflow build the
counter would wrap to -32768 and the result would be the empty vector, which
also differs from `v`.) -/
theorem claim_C8_counterexample :
    Binary.consensus_sum (List.replicate 32768 ⟨1, [0], [1]⟩) (fun _ => true)
      = .panic := by
  rw [show List.replicate 32768 (⟨1, [0], [1]⟩ : CsVec)
      = (⟨1, [0], [1]⟩ : CsVec) :: List.replicate 32767 ⟨1, [0], [1]⟩ from
    List.replicate_succ ..]
  apply consensus_sum_fold_none
  show List.foldlM (fun votes v => Binary.voteStep 1 v votes)
      (List.replicate 1 (0 : Int))
      ((⟨1, [0], [1]⟩ : CsVec) :: List.replicate 32767 ⟨1, [0], [1]⟩) = none
  have e1 : ((⟨1, [0], [1]⟩ : CsVec) :: List.replicate 32767 ⟨1, [0], [1]⟩)
      = List.replicate 32767 (⟨1, [0], [1]⟩ : CsVec) ++ [⟨1, [0], [1]⟩] := by
    rw [← List.replicate_succ, List.replicate_succ']
  refine (congrArg (List.foldlM (fun votes v => Binary.voteStep 1 v votes)
    (List.replicate 1 (0 : Int))) e1).trans ?_
  refine (foldlM_option_snoc _ _ _ _).trans ?_
  have e2 : List.replicate 1 (0 : Int) = (List.range 1).map (fun idx =>
      if (⟨1, [0], [1]⟩ : CsVec).indices.contains idx then ((0 : Nat) : Int)
      else -((0 : Nat) : Int)) := by decide
  refine (congrArg (fun o : Option (List Int) =>
    o.bind (fun x => Binary.voteStep 1 ⟨1, [0], [1]⟩ x))
    ((congrArg (fun init => List.foldlM
        (fun votes v => Binary.voteStep 1 v votes) init
        (List.replicate 32767 (⟨1, [0], [1]⟩ : CsVec))) e2).trans
      (votes_replicate ⟨1, [0], [1]⟩ 1 32767 0 (by omega)))).trans ?_
  refine (Option.some_bind _ _).trans ?_
  decide
